import Mathlib

/-!
Verification of the shared-haplotype detection core of
`graphs_for_true_matches.py`: carrier analysis, the majority-threshold
shared-carrier set, ultra-rare annotation filtering, gene-region overlap,
zygosity-mode block segmentation, cluster flushing and the streaming
cluster accumulator of `main`.
-/

/-- One VCF variant record as consumed by the core: chromosome, position,
per-individual genotype allele calls (`genotypes`, the first two entries of
each inner list are the two allele calls), per-individual combined genotype
categories (`gt_types`, value 3 = homozygous alternate) and the raw CSQ
annotation string (empty when the INFO field is absent). -/
structure Variant where
  CHROM : String
  POS : Int
  genotypes : List (List Int)
  gt_types : List Nat
  CSQ : String
  deriving DecidableEq, Repr

/-- The individual indices `i` (in enumeration order) whose first two allele
calls at this variant contain a non-reference allele (`allele > 0`):
the comprehension inside `variant_carriers`. -/
def carriersList (v : Variant) : List ℕ :=
  (List.range v.genotypes.length).filter
    (fun i => ((v.genotypes.getD i []).take 2).any (fun a => decide (0 < a)))

/-- `variant_carriers` from the source: the set of individual indices whose
first two allele calls at this variant contain a non-reference allele
(`allele > 0`). -/
def variant_carriers (v : Variant) : Finset ℕ :=
  (carriersList v).toFinset

/-- `all_shared_homozygous` from the source: `gt_types[i] == 3` for every
shared individual `i`. -/
def all_shared_homozygous (v : Variant) (shared_inds : Finset ℕ) : Bool :=
  decide (∀ i ∈ shared_inds, v.gt_types.getD i 0 = 3)

/-- The count of individual `i` in the flattened list of per-variant carrier
sets (`Counter(flat_list)[i]` in `flush_cluster`). -/
def carrierCount (i : ℕ) (variants : List Variant) : ℕ :=
  ((variants.map carriersList).flatten).count i

/-- The keys of the Python `Counter` in `flush_cluster`: individuals that
appear in at least one per-variant carrier set. -/
def unionCarriers (variants : List Variant) : Finset ℕ :=
  variants.foldr (fun v acc => variant_carriers v ∪ acc) ∅

/-- The shared-carrier set of a flushed cluster, from `flush_cluster`:
individuals occurring in the carrier `Counter` whose count reaches
`threshold = int(0.8 * total_variants)`.  Python evaluates the threshold
with IEEE doubles; for every cluster size arising in practice this equals
the exact integer floor of `0.8 * n`, modelled here as `(8 * n) / 10` in
natural-number (floor) division. -/
def sharedInds (variants : List Variant) : Finset ℕ :=
  let total_variants := variants.length
  let threshold := (8 * total_variants) / 10
  (unionCarriers variants).filter (fun i => threshold ≤ carrierCount i variants)

lemma count_carriersList_eq (v : Variant) (i : ℕ) :
    (carriersList v).count i = if i ∈ variant_carriers v then 1 else 0 := by
  have hnd : (carriersList v).Nodup := (List.nodup_range _).filter _
  by_cases h : i ∈ variant_carriers v
  · simp only [h, if_true]
    exact List.count_eq_one_of_mem hnd (List.mem_toFinset.mp h)
  · simp only [h, if_false]
    exact List.count_eq_zero_of_not_mem (fun hm => h (List.mem_toFinset.mpr hm))

lemma carrierCount_cons (i : ℕ) (v : Variant) (vs : List Variant) :
    carrierCount i (v :: vs)
      = (if i ∈ variant_carriers v then 1 else 0) + carrierCount i vs := by
  unfold carrierCount
  simp only [List.map_cons, List.flatten_cons, List.count_append, count_carriersList_eq]

lemma carrierCount_eq_countP (i : ℕ) (variants : List Variant) :
    carrierCount i variants
      = variants.countP (fun v => decide (i ∈ variant_carriers v)) := by
  induction variants with
  | nil => rfl
  | cons v vs ih =>
    rw [carrierCount_cons, ih, List.countP_cons]
    by_cases h : i ∈ variant_carriers v <;> simp [h, Nat.add_comm]

lemma mem_unionCarriers (i : ℕ) (variants : List Variant) :
    i ∈ unionCarriers variants ↔ ∃ v ∈ variants, i ∈ variant_carriers v := by
  induction variants with
  | nil => simp [unionCarriers]
  | cons v vs ih =>
    show i ∈ variant_carriers v ∪ unionCarriers vs ↔ _
    rw [Finset.mem_union, ih]
    simp

lemma mem_unionCarriers_iff_count (i : ℕ) (variants : List Variant) :
    i ∈ unionCarriers variants ↔ 0 < carrierCount i variants := by
  rw [mem_unionCarriers, carrierCount_eq_countP, List.countP_pos_iff]
  simp

lemma mem_sharedInds (i : ℕ) (variants : List Variant) :
    i ∈ sharedInds variants ↔
      (8 * variants.length) / 10 ≤ carrierCount i variants ∧
        0 < carrierCount i variants := by
  unfold sharedInds
  rw [Finset.mem_filter, mem_unionCarriers_iff_count, and_comm]

/-! ### Concrete variants used in examples and counterexamples -/

/-- A variant carried (heterozygously) by individuals 0 and 1. -/
def vBoth : Variant := ⟨"1", 100, [[1, 0], [1, 0]], [1, 1], ""⟩

/-- A variant carried only by individual 1. -/
def vOnly1 : Variant := ⟨"1", 200, [[0, 0], [1, 0]], [0, 1], ""⟩

/-- A 10-variant cluster in which individual 0 carries exactly 8 variants. -/
def cluster8of10 : List Variant := List.replicate 8 vBoth ++ List.replicate 2 vOnly1

/-- A 10-variant cluster in which individual 0 carries exactly 7 variants. -/
def cluster7of10 : List Variant := List.replicate 7 vBoth ++ List.replicate 3 vOnly1

/-- A single variant carried only by individual 0 (individual 1 is not a
carrier). -/
def vCar0 : Variant := ⟨"1", 100, [[1, 0], [0, 0]], [1, 0], ""⟩

/-- C2, counterexample: for a single-variant cluster the floor threshold
`int(0.8 * 1)` is 0 and individual 1 is a carrier at 0 ≥ 0 of the cluster's
variants, yet it is not in the shared-carrier set, because the Python
`Counter` ranges only over individuals carrying at least one variant.  So
membership is not equivalent to `floor(0.8 * n) ≤ carrier count`. -/
theorem sharedInds_threshold_only_fails :
    ¬ (1 ∈ sharedInds [vCar0] ↔
        (8 * ([vCar0] : List Variant).length) / 10 ≤ carrierCount 1 [vCar0]) := by
  decide

/-- C2, amended: an individual belongs to the shared-carrier set iff its
carrier count over the cluster reaches the integer-floor threshold
`⌊0.8 * n⌋` AND it carries at least one of the cluster's variants (the
extra conjunct only matters when the threshold is 0, i.e. n ≤ 1); in
particular, in a cluster of 10 variants a carrier at 8 of them is included
and a carrier at exactly 7 of them is excluded. -/
theorem sharedInds_mem_iff_floor_threshold :
    (∀ (variants : List Variant) (i : ℕ),
        i ∈ sharedInds variants ↔
          (8 * variants.length) / 10 ≤ carrierCount i variants ∧
            1 ≤ carrierCount i variants) ∧
    (cluster8of10.length = 10 ∧ carrierCount 0 cluster8of10 = 8 ∧
      0 ∈ sharedInds cluster8of10) ∧
    (cluster7of10.length = 10 ∧ carrierCount 0 cluster7of10 = 7 ∧
      0 ∉ sharedInds cluster7of10) := by
  refine ⟨fun variants i => ?_, by decide, by decide⟩
  rw [mem_sharedInds]
  exact and_congr_right (fun _ => Nat.pos_iff_ne_zero.trans (by omega))

/-- C9: the shared-carrier set of a flushed cluster is invariant under any
permutation of the cluster's variant list: it depends only on each
individual's carrier count and on the cluster size, both of which are
permutation-invariant. -/
theorem sharedInds_perm_invariant (vs vs' : List Variant) (h : vs.Perm vs') :
    sharedInds vs = sharedInds vs' := by
  ext i
  rw [mem_sharedInds, mem_sharedInds, carrierCount_eq_countP, carrierCount_eq_countP,
    h.countP_eq, h.length_eq]

/-- Witness for C9 at a concrete two-variant cluster and its swap. -/
theorem sharedInds_perm_invariant_witness :
    sharedInds [vBoth, vOnly1] = sharedInds [vOnly1, vBoth] :=
  sharedInds_perm_invariant [vBoth, vOnly1] [vOnly1, vBoth]
    (List.Perm.swap vOnly1 vBoth [])

/-- C10: the shared-carrier set is always a subset of the union of the
per-variant carrier sets — an individual carrying no variant of the cluster
is never shared — and for a single-variant cluster, where the floor
threshold `⌊0.8 * 1⌋` is 0, the shared set is exactly the carrier set of
that one variant. -/
theorem sharedInds_subset_unionCarriers :
    (∀ variants : List Variant, sharedInds variants ⊆ unionCarriers variants) ∧
    (∀ v : Variant, (8 * ([v] : List Variant).length) / 10 = 0 ∧
      sharedInds [v] = variant_carriers v) := by
  constructor
  · intro variants
    exact Finset.filter_subset _ _
  · intro v
    refine ⟨by simp, ?_⟩
    ext i
    rw [mem_sharedInds, carrierCount_cons]
    by_cases h : i ∈ variant_carriers v <;> simp [h, carrierCount]

/-- Witness for C10 at a concrete variant. -/
theorem sharedInds_subset_unionCarriers_witness :
    sharedInds [vBoth] ⊆ unionCarriers [vBoth] ∧
      sharedInds [vBoth] = variant_carriers vBoth :=
  ⟨sharedInds_subset_unionCarriers.1 [vBoth],
    (sharedInds_subset_unionCarriers.2 vBoth).2⟩

/-! ### AnnotationFilter: `is_ultra_rare_variant` -/

/-- Python `str.split(sep)` for a one-character separator: splits into the
(possibly empty) pieces between occurrences of `sep`; the empty input gives
one empty piece, as in Python. -/
def splitChar (sep : Char) : List Char → List (List Char)
  | [] => [[]]
  | c :: cs =>
    if c = sep then [] :: splitChar sep cs
    else
      match splitChar sep cs with
      | [] => [[c]]
      | p :: ps => (c :: p) :: ps

/-- One iteration of the loop in `is_ultra_rare_variant`: whether this
comma-separated CSQ sub-entry makes the function return `true`.  Sub-entries
with too few pipe-delimited fields are skipped (`continue`), an empty or
`"."` frequency field returns `true`, a parseable frequency returns `true`
iff it is ≤ `af_threshold`, and an unparseable field is skipped.  The
partial Python `float` parser is passed in as `parseF`. -/
def entryTriggers (parseF : List Char → Option ℚ) (gnomad_idx : ℕ)
    (af_threshold : ℚ) (entry : List Char) : Bool :=
  if (splitChar '|' entry).length ≤ gnomad_idx then false
  else if (splitChar '|' entry).getD gnomad_idx [] = [] ∨
      (splitChar '|' entry).getD gnomad_idx [] = ['.'] then true
  else
    match parseF ((splitChar '|' entry).getD gnomad_idx []) with
    | some af => decide (af ≤ af_threshold)
    | none => false

lemma entryTriggers_iff (parseF : List Char → Option ℚ) (gnomad_idx : ℕ)
    (af_threshold : ℚ) (entry : List Char) :
    entryTriggers parseF gnomad_idx af_threshold entry = true ↔
      gnomad_idx < (splitChar '|' entry).length ∧
        ((splitChar '|' entry).getD gnomad_idx [] = [] ∨
          (splitChar '|' entry).getD gnomad_idx [] = ['.'] ∨
          ∃ af, parseF ((splitChar '|' entry).getD gnomad_idx []) = some af ∧
            af ≤ af_threshold) := by
  unfold entryTriggers
  set fields := splitChar '|' entry with hfields
  set val := fields.getD gnomad_idx [] with hval
  by_cases hlen : fields.length ≤ gnomad_idx
  · rw [if_pos hlen]
    exact ⟨fun h => (nomatch h), fun h => absurd h.1 (by omega)⟩
  · have hidx : gnomad_idx < fields.length := by omega
    rw [if_neg hlen]
    by_cases hv : val = [] ∨ val = ['.']
    · rw [if_pos hv]
      refine ⟨fun _ => ⟨hidx, ?_⟩, fun _ => rfl⟩
      rcases hv with h | h
      · exact Or.inl h
      · exact Or.inr (Or.inl h)
    · rw [if_neg hv]
      rcases hp : parseF val with _ | af
      · refine ⟨fun h => (nomatch h), fun h => ?_⟩
        rcases h.2 with h2 | h2 | ⟨af, haf, -⟩
        · exact absurd (Or.inl h2) hv
        · exact absurd (Or.inr h2) hv
        · exact (nomatch haf)
      · rw [decide_eq_true_eq]
        refine ⟨fun hle => ⟨hidx, Or.inr (Or.inr ⟨af, rfl, hle⟩)⟩, fun h => ?_⟩
        rcases h.2 with h2 | h2 | ⟨af', haf', hle⟩
        · exact absurd (Or.inl h2) hv
        · exact absurd (Or.inr h2) hv
        · cases haf'
          exact hle

/-- `is_ultra_rare_variant` from the source: `false` when the CSQ annotation
is absent/empty, otherwise `true` iff some comma-separated sub-entry
triggers (the loop's early `return True` is the list `any`). -/
def is_ultra_rare_variant (parseF : List Char → Option ℚ) (csq : String)
    (gnomad_idx : ℕ) (af_threshold : ℚ) : Bool :=
  if csq = "" then false
  else (splitChar ',' csq.toList).any (entryTriggers parseF gnomad_idx af_threshold)

/-- C1, counterexample: a variant whose single CSQ sub-entry `"a|b"` has too
few fields to contain the configured frequency field (index 5) — the
frequency field is absent — yet `is_ultra_rare_variant` returns `false`,
because the code skips such sub-entries instead of treating them as rare.
The claim says an absent frequency field makes the test return `true`. -/
theorem is_ultra_rare_absent_field_not_rare :
    (splitChar ',' "a|b".toList = ["a|b".toList]) ∧
      (splitChar '|' "a|b".toList).length ≤ 5 ∧
      is_ultra_rare_variant (fun _ => none) "a|b" 5 0 = false := by
  decide

/-- C1, amended: the ultra-rare test returns `true` iff the CSQ annotation
is non-empty and some comma-separated sub-entry has the frequency field
present (enough pipe-delimited fields) and that field is empty, the
placeholder `"."`, or parses to a value ≤ `af_threshold`.  Sub-entries whose
field is missing (too few fields) or unparseable are skipped, so the test
returns `false` iff the annotation is empty or every sub-entry is skipped or
parses above the threshold. -/
theorem is_ultra_rare_variant_iff :
    ∀ (parseF : List Char → Option ℚ) (csq : String) (gnomad_idx : ℕ)
      (af_threshold : ℚ),
      is_ultra_rare_variant parseF csq gnomad_idx af_threshold = true ↔
        csq ≠ "" ∧
          ∃ entry ∈ splitChar ',' csq.toList,
            gnomad_idx < (splitChar '|' entry).length ∧
              ((splitChar '|' entry).getD gnomad_idx [] = [] ∨
                (splitChar '|' entry).getD gnomad_idx [] = ['.'] ∨
                ∃ af, parseF ((splitChar '|' entry).getD gnomad_idx []) = some af ∧
                  af ≤ af_threshold) := by
  intro parseF csq gnomad_idx af_threshold
  unfold is_ultra_rare_variant
  by_cases hempty : csq = ""
  · simp [hempty]
  · rw [if_neg hempty, List.any_eq_true]
    simp only [ne_eq, hempty, not_false_eq_true, true_and]
    exact exists_congr (fun entry =>
      and_congr_right (fun _ => entryTriggers_iff parseF gnomad_idx af_threshold entry))

/-! ### GeneRegionSet: chromosome normalization, padding and overlap -/

/-- Python `s.lstrip("chr")`: removes every leading character belonging to
the set `{'c', 'h', 'r'}` (not merely a literal `"chr"` prefix). -/
def lstripChr (s : String) : String :=
  (s.toList.dropWhile (fun c => decide (c = 'c' ∨ c = 'h' ∨ c = 'r'))).asString

/-- Modelled from the spec wording of the claim: chromosome normalization
that removes exactly a literal `"chr"` prefix and nothing else; used only to
compare with the source's `lstrip("chr")` behaviour. -/
def stripChrPrefixSpec (s : String) : String :=
  if s.toList.take 3 = ['c', 'h', 'r'] then (s.toList.drop 3).asString else s

/-- One loaded gene region from `main`: normalized chromosome name and the
interval padded by `BUFFER = 10000` on both sides, with the padded start
floored at 0. -/
def mkGeneRegion (chromosome_name : String) (start_position end_position : Int) :
    String × Int × Int :=
  (lstripChr chromosome_name, max 0 (start_position - 10000), end_position + 10000)

/-- `overlaps_gene_region` from the source: the query chromosome is
normalized with `lstrip("chr")`, then some region must have an equal
chromosome name and pass `not (end < region_start or start > region_end)`. -/
def overlaps_gene_region (chrom : String) (start stop : Int)
    (regions : List (String × Int × Int)) : Bool :=
  regions.any (fun r =>
    lstripChr chrom == r.1 && !(decide (stop < r.2.1) || decide (r.2.2 < start)))

lemma dropWhile_idem (p : Char → Bool) (l : List Char) :
    (l.dropWhile p).dropWhile p = l.dropWhile p := by
  induction l with
  | nil => rfl
  | cons c cs ih =>
    by_cases h : p c
    · simp [List.dropWhile_cons, h, ih]
    · simp [List.dropWhile_cons, h]

lemma lstripChr_idem (s : String) : lstripChr (lstripChr s) = lstripChr s := by
  unfold lstripChr
  rw [show ((s.toList.dropWhile _).asString).toList = s.toList.dropWhile _ from rfl,
    dropWhile_idem]

/-- C6: a block `[start, stop]` passes the gene-region filter iff some
region on the same normalized chromosome satisfies
`not (stop < region_start or start > region_end)`; in particular a block
touching a region (`stop = region_start`) overlaps, and a block starting at
`region_end + 1` does not. -/
theorem overlaps_gene_region_iff :
    (∀ (chrom : String) (start stop : Int) (regions : List (String × Int × Int)),
        overlaps_gene_region chrom start stop regions = true ↔
          ∃ r ∈ regions, lstripChr chrom = r.1 ∧ ¬(stop < r.2.1 ∨ r.2.2 < start)) ∧
    (∀ (chrom : String) (rs re start stop : Int),
        start ≤ stop → rs ≤ re → stop = rs →
        overlaps_gene_region chrom start stop [(lstripChr chrom, rs, re)] = true) ∧
    (∀ (chrom : String) (rs re stop : Int),
        overlaps_gene_region chrom (re + 1) stop [(lstripChr chrom, rs, re)] = false) := by
  have hmain : ∀ (chrom : String) (start stop : Int)
      (regions : List (String × Int × Int)),
      overlaps_gene_region chrom start stop regions = true ↔
        ∃ r ∈ regions, lstripChr chrom = r.1 ∧ ¬(stop < r.2.1 ∨ r.2.2 < start) := by
    intro chrom start stop regions
    unfold overlaps_gene_region
    rw [List.any_eq_true]
    refine exists_congr (fun r => and_congr_right (fun _ => ?_))
    rw [Bool.and_eq_true, beq_iff_eq, Bool.not_eq_true']
    simp [not_or]
  refine ⟨hmain, fun chrom rs re start stop h1 h2 h3 => ?_, fun chrom rs re stop => ?_⟩
  · rw [hmain]
    refine ⟨(lstripChr chrom, rs, re), by simp, rfl, ?_⟩
    show ¬(stop < rs ∨ re < start)
    omega
  · rw [Bool.eq_false_iff]
    intro hc
    rcases (hmain _ _ _ _).mp hc with ⟨r, hr, -, hov⟩
    simp only [List.mem_singleton] at hr
    subst hr
    simp only [not_or, not_lt] at hov
    omega

/-- Witness for C6 at concrete inputs: a region `[10, 20]` on chromosome
`"1"`, a touching block `[5, 10]` (overlaps) and a block starting at 21
(does not). -/
theorem overlaps_gene_region_iff_witness :
    (overlaps_gene_region "chr1" 5 10 [("1", 10, 20)] = true ↔
      ∃ r ∈ [(("1" : String), (10 : Int), (20 : Int))], lstripChr "chr1" = r.1 ∧
        ¬((10 : Int) < r.2.1 ∨ r.2.2 < (5 : Int))) ∧
    overlaps_gene_region "chr1" 5 10 [(lstripChr "chr1", 10, 20)] = true ∧
    overlaps_gene_region "chr1" 21 25 [(lstripChr "chr1", 10, 20)] = false :=
  ⟨overlaps_gene_region_iff.1 "chr1" 5 10 [("1", 10, 20)],
    overlaps_gene_region_iff.2.1 "chr1" 10 20 5 10 (by omega) (by omega) rfl,
    overlaps_gene_region_iff.2.2 "chr1" 10 20 25⟩

/-- C8, counterexample: the chromosome name `"hr5"` does not start with the
prefix `"chr"`, so removing exactly the `"chr"` prefix leaves it unchanged,
but the source's `lstrip("chr")` (which removes every leading character in
the set `{c, h, r}`) turns it into `"5"`, both at gene-region load time and
at query-side normalization. -/
theorem lstrip_not_exact_chr_removal :
    stripChrPrefixSpec "hr5" = "hr5" ∧ lstripChr "hr5" = "5" ∧
      (mkGeneRegion "hr5" 0 0).1 = "5" := by
  decide

/-- C8, amended: chromosome names are normalized on both the gene-region
side (at load) and the variant side (at query) by `lstrip("chr")`, i.e. by
removing all leading characters drawn from `{'c','h','r'}` (which removes a
literal `"chr"` prefix when present, but can remove more); every loaded
region is padded by 10000 on both sides, with the padded start floored at 0
and hence non-negative. -/
theorem gene_region_normalization_and_padding :
    (∀ (chromosome_name : String) (start_position end_position : Int),
        mkGeneRegion chromosome_name start_position end_position
          = (lstripChr chromosome_name, max 0 (start_position - 10000),
              end_position + 10000) ∧
          0 ≤ (mkGeneRegion chromosome_name start_position end_position).2.1) ∧
    (∀ (chrom : String) (start stop : Int) (regions : List (String × Int × Int)),
        overlaps_gene_region chrom start stop regions
          = overlaps_gene_region (lstripChr chrom) start stop regions) ∧
    lstripChr "chr1" = "1" := by
  refine ⟨fun c s e => ⟨rfl, le_max_left 0 _⟩, fun chrom start stop regions => ?_, by decide⟩
  unfold overlaps_gene_region
  rw [lstripChr_idem]

/-! ### SegmentEmitter: zygosity-mode block segmentation -/

/-- The zygosity mode of one variant relative to the shared-carrier set:
`double` when every shared carrier is homozygous alternate, else `single`. -/
inductive Mode where
  | single : Mode
  | double : Mode
  deriving DecidableEq, Repr

/-- The mode string computed per variant inside `flush_cluster`. -/
def modeOf (v : Variant) (shared_inds : Finset ℕ) : Mode :=
  if all_shared_homozygous v shared_inds then Mode.double else Mode.single

/-- A block `(block_start, block_end, mode)` of variant indices, as built by
the segmentation loop in `flush_cluster`. -/
abbrev Blk := ℕ × ℕ × Mode

/-- The segmentation loop of `flush_cluster` after its first iteration has
set `cur_mode`: `cur` is the current mode, `block_start` the index opening
the current block, `idx` the index of the next mode in the remaining list.
A mode change closes the block `(block_start, idx - 1, cur)`; the end of
the list closes the final block. -/
def segLoop : Mode → ℕ → ℕ → List Mode → List Blk
  | cur, block_start, idx, [] => [(block_start, idx - 1, cur)]
  | cur, block_start, idx, m :: rest =>
    if m = cur then segLoop cur block_start (idx + 1) rest
    else (block_start, idx - 1, cur) :: segLoop m idx (idx + 1) rest

/-- The blocks computed by `flush_cluster` from the per-variant mode list;
the cluster is non-empty whenever this is reached (the empty guard at the
top of `flush_cluster`), so the first iteration always sets `cur_mode` to
the first mode. -/
def buildBlocks : List Mode → List Blk
  | [] => []
  | m :: rest => segLoop m 0 1 rest

/-- The per-variant mode list of a flushed cluster, relative to its own
shared-carrier set. -/
def clusterModes (variants : List Variant) : List Mode :=
  variants.map (fun v => modeOf v (sharedInds variants))

lemma segLoop_spec (ms : List Mode) :
    ∀ (cur : Mode) (bstart idx : ℕ), bstart < idx →
      ∃ b bs, segLoop cur bstart idx ms = b :: bs ∧
        b.1 = bstart ∧ b.2.2 = cur ∧
        (∀ x ∈ b :: bs, x.1 ≤ x.2.1) ∧
        List.Chain' (fun x y : Blk => y.1 = x.2.1 + 1 ∧ x.2.2 ≠ y.2.2) (b :: bs) ∧
        ((b :: bs).getLast (List.cons_ne_nil b bs)).2.1 + 1 = idx + ms.length ∧
        (((b :: bs).map (fun x => x.2.1 + 1 - x.1)).sum + bstart = idx + ms.length) := by
  induction ms with
  | nil =>
    intro cur bstart idx h
    refine ⟨(bstart, idx - 1, cur), [], rfl, rfl, rfl, ?_, ?_, ?_, ?_⟩
    · intro x hx
      simp only [List.mem_singleton] at hx
      subst hx
      show bstart ≤ idx - 1
      omega
    · exact List.chain'_singleton _
    · show (idx - 1) + 1 = idx + 0
      omega
    · show ((idx - 1) + 1 - bstart) + 0 + bstart = idx + 0
      omega
  | cons m rest ih =>
    intro cur bstart idx h
    by_cases hm : m = cur
    · rw [show segLoop cur bstart idx (m :: rest) = segLoop cur bstart (idx + 1) rest
        from by rw [segLoop, if_pos hm]]
      obtain ⟨b, bs, heq, h1, h2, h3, h4, h5, h6⟩ :=
        ih cur bstart (idx + 1) (by omega)
      exact ⟨b, bs, heq, h1, h2, h3, h4, by simpa [Nat.add_assoc, Nat.add_comm 1] using h5,
        by simp only [List.length_cons]; omega⟩
    · rw [show segLoop cur bstart idx (m :: rest)
          = (bstart, idx - 1, cur) :: segLoop m idx (idx + 1) rest
        from by rw [segLoop, if_neg hm]]
      obtain ⟨c, cs, heq, h1, h2, h3, h4, h5, h6⟩ := ih m idx (idx + 1) (by omega)
      rw [heq]
      refine ⟨(bstart, idx - 1, cur), c :: cs, rfl, rfl, rfl, ?_, ?_, ?_, ?_⟩
      · intro x hx
        rcases List.mem_cons.mp hx with hx | hx
        · subst hx
          show bstart ≤ idx - 1
          omega
        · exact h3 x hx
      · rw [List.chain'_cons]
        refine ⟨⟨?_, ?_⟩, h4⟩
        · show c.1 = (idx - 1) + 1
          omega
        · show cur ≠ c.2.2
          rw [h2]
          exact fun hcc => hm hcc.symm
      · rw [List.getLast_cons (List.cons_ne_nil c cs)]
        simp only [List.length_cons]
        omega
      · simp only [List.map_cons, List.sum_cons, List.length_cons] at h6 ⊢
        omega

/-- C4: for every non-empty flushed cluster that passes the carrier-count
bounds, the computed blocks partition the cluster's index range exactly —
the first block starts at index 0, each next block starts right after the
previous block's end, the last block ends at the last index, every block is
non-empty, the block sizes sum to the cluster size — and adjacent blocks
have different modes. -/
theorem buildBlocks_partition (cfg_min_individuals : ℕ)
    (cfg_max_individuals : Option ℕ) (variants : List Variant)
    (hne : variants ≠ [])
    (_hmin : cfg_min_individuals ≤ (sharedInds variants).card)
    (_hmax : ∀ M ∈ cfg_max_individuals, (sharedInds variants).card ≤ M) :
    ((buildBlocks (clusterModes variants)).map (fun x => x.2.1 + 1 - x.1)).sum
        = variants.length ∧
      ((buildBlocks (clusterModes variants)).head?.map (fun x => x.1) = some 0) ∧
      ((buildBlocks (clusterModes variants)).getLast?.map (fun x => x.2.1 + 1)
        = some variants.length) ∧
      (∀ x ∈ buildBlocks (clusterModes variants), x.1 ≤ x.2.1) ∧
      List.Chain' (fun x y : Blk => y.1 = x.2.1 + 1)
        (buildBlocks (clusterModes variants)) ∧
      List.Chain' (fun x y : Blk => x.2.2 ≠ y.2.2)
        (buildBlocks (clusterModes variants)) := by
  rcases hms : clusterModes variants with _ | ⟨m, rest⟩
  · unfold clusterModes at hms
    rw [List.map_eq_nil_iff] at hms
    exact absurd hms hne
  · have hlen : variants.length = (m :: rest).length := by
      rw [← hms]
      simp [clusterModes]
    obtain ⟨b, bs, heq, h1, h2, h3, h4, h5, h6⟩ := segLoop_spec rest m 0 1 (by omega)
    rw [show buildBlocks (m :: rest) = segLoop m 0 1 rest from rfl, heq]
    refine ⟨?_, ?_, ?_, h3, ?_, ?_⟩
    · simp only [List.length_cons] at hlen
      omega
    · simp only [List.head?_cons, Option.map_some]
      exact congrArg some h1
    · rw [List.getLast?_eq_getLast _ (List.cons_ne_nil b bs)]
      simp only [List.length_cons] at hlen
      show some (((b :: bs).getLast (List.cons_ne_nil b bs)).2.1 + 1)
        = some variants.length
      exact congrArg some (by omega)
    · exact h4.imp (fun _ _ hxy => hxy.1)
    · exact h4.imp (fun _ _ hxy => hxy.2)

/-- Witness for C4 at a concrete two-variant cluster with permissive
carrier bounds. -/
theorem buildBlocks_partition_witness :
    ((buildBlocks (clusterModes [vBoth, vOnly1])).map
        (fun x => x.2.1 + 1 - x.1)).sum = 2 ∧
      ((buildBlocks (clusterModes [vBoth, vOnly1])).head?.map (fun x => x.1)
        = some 0) := by
  obtain ⟨hsum, hhead, -⟩ := buildBlocks_partition 0 none [vBoth, vOnly1]
    (by decide) (Nat.zero_le _) (fun M hM => by cases hM)
  exact ⟨hsum, hhead⟩

/-! ### SegmentEmitter: `flush_cluster` and per-block emission -/

/-- The configuration surface of `flush_cluster` (the keyword arguments it
receives from `main`).  The partial Python `float` parser used on CSQ
frequency fields is carried as `parseF`. -/
structure Config where
  min_individuals : ℕ
  min_variants : ℕ
  max_individuals : Option ℕ
  min_segment_length : Option Int
  max_segment_length : Option Int
  sample_ids : List String
  gene_regions : List (String × Int × Int)
  gnomad_idx : ℕ
  min_ultra_rare : ℕ
  af_threshold : ℚ
  parseF : List Char → Option ℚ

/-- One emitted output line of `flush_cluster` (`stop` is the printed `end`
column). -/
structure OutputRecord where
  chrom : String
  start : Int
  stop : Int
  n_vars : ℕ
  n_shared : ℕ
  inds : String
  mode : Mode
  err_left : Option Int
  err_right : Option Int
  n_ultra_rare : ℕ
  label : String
  deriving DecidableEq, Repr

/-- The per-block body of the output loop in `flush_cluster`: slices
`variants[b_start : b_end + 1]`, applies the variant-count, segment-length,
gene-region and ultra-rare filters (`continue` on failure = `none`),
computes the flank gaps, and emits the record.  The `[]` branch of the
match is unreachable for the blocks produced by `buildBlocks` on a
non-empty cluster. -/
def emitBlock (cfg : Config) (variants : List Variant)
    (prev_nonshared_pos next_nonshared_pos : Option Int) (chrom : String)
    (n_shared : ℕ) (inds_str : String) (b : Blk) : Option OutputRecord :=
  match (variants.drop b.1).take (b.2.1 + 1 - b.1) with
  | [] => none
  | bv0 :: bvrest =>
    if decide ((bv0 :: bvrest).length < cfg.min_variants)
        || (match cfg.min_segment_length with
            | some m => decide (((bv0 :: bvrest).getLastD bv0).POS - bv0.POS < m)
            | none => false)
        || (match cfg.max_segment_length with
            | some m => decide (m < ((bv0 :: bvrest).getLastD bv0).POS - bv0.POS)
            | none => false) then none
    else if !(overlaps_gene_region chrom bv0.POS ((bv0 :: bvrest).getLastD bv0).POS
        cfg.gene_regions) then none
    else if (bv0 :: bvrest).countP
        (fun v => is_ultra_rare_variant cfg.parseF v.CSQ cfg.gnomad_idx
          cfg.af_threshold) < cfg.min_ultra_rare then none
    else
      some ⟨chrom, bv0.POS, ((bv0 :: bvrest).getLastD bv0).POS,
        (bv0 :: bvrest).length, n_shared, inds_str, b.2.2,
        ((if 0 < b.1 then (variants[b.1 - 1]?).map Variant.POS
          else prev_nonshared_pos).map (fun lf => bv0.POS - lf)),
        ((if b.2.1 + 1 < variants.length then (variants[b.2.1 + 1]?).map Variant.POS
          else next_nonshared_pos).map
            (fun rf => rf - ((bv0 :: bvrest).getLastD bv0).POS)),
        (bv0 :: bvrest).countP
          (fun v => is_ultra_rare_variant cfg.parseF v.CSQ cfg.gnomad_idx
            cfg.af_threshold),
        "ULTRA_RARE"⟩

/-- `flush_cluster` from the source: no-op on an empty cluster, discards the
cluster when the shared-carrier count is out of bounds, otherwise emits the
records of the qualifying blocks in order. -/
def flush_cluster (cfg : Config) (variants : List Variant)
    (prev_nonshared_pos next_nonshared_pos : Option Int) : List OutputRecord :=
  match variants with
  | [] => []
  | v0 :: vrest =>
    if (sharedInds (v0 :: vrest)).card < cfg.min_individuals then []
    else if (match cfg.max_individuals with
        | some m => decide (m < (sharedInds (v0 :: vrest)).card)
        | none => false) then []
    else
      (buildBlocks ((v0 :: vrest).map
          (fun v => modeOf v (sharedInds (v0 :: vrest))))).filterMap
        (emitBlock cfg (v0 :: vrest) prev_nonshared_pos next_nonshared_pos
          v0.CHROM (sharedInds (v0 :: vrest)).card
          (String.intercalate ","
            (((sharedInds (v0 :: vrest)).sort (· ≤ ·)).map
              (fun i => cfg.sample_ids.getD i ""))))

/-- C7: a flushed cluster whose shared-carrier count is below
`min_individuals`, or above a configured `max_individuals`, is discarded
entirely: `flush_cluster` produces zero output records. -/
theorem flush_cluster_bounds_discard (cfg : Config) (variants : List Variant)
    (prev_nonshared_pos next_nonshared_pos : Option Int)
    (h : (sharedInds variants).card < cfg.min_individuals ∨
      ∃ M, cfg.max_individuals = some M ∧ M < (sharedInds variants).card) :
    flush_cluster cfg variants prev_nonshared_pos next_nonshared_pos = [] := by
  rcases variants with _ | ⟨v0, vrest⟩
  · rfl
  · rw [flush_cluster]
    rcases h with h | ⟨M, hM, hMlt⟩
    · rw [if_pos h]
    · by_cases h1 : (sharedInds (v0 :: vrest)).card < cfg.min_individuals
      · rw [if_pos h1]
      · rw [if_neg h1, if_pos (by simp [hM, hMlt])]

/-- A configuration demanding at least 5 shared individuals (used to witness
the discard path). -/
def cfgTight : Config := ⟨5, 1, none, none, none, [], [], 0, 0, 0, fun _ => none⟩

/-- Witness for C7: a single-variant cluster with 2 shared carriers is
discarded when `min_individuals = 5`. -/
theorem flush_cluster_bounds_discard_witness :
    flush_cluster cfgTight [vBoth] none none = [] :=
  flush_cluster_bounds_discard cfgTight [vBoth] none none (Or.inl (by decide))

/-- C5: for every emitted block record, the left flank gap is computed from
the cluster's `prev_nonshared_pos` exactly when the block starts at the
cluster's first variant (index 0) and otherwise from the position of the
variant immediately preceding the block; symmetrically the right flank gap
uses `next_nonshared_pos` exactly when the block ends at the cluster's last
variant and otherwise the position of the variant immediately following it;
and a null flank yields a null gap in the record. -/
theorem emitBlock_flank_gaps (cfg : Config) (variants : List Variant)
    (prev_nonshared_pos next_nonshared_pos : Option Int) (chrom : String)
    (n_shared : ℕ) (inds_str : String) (b : Blk) (r : OutputRecord)
    (h : emitBlock cfg variants prev_nonshared_pos next_nonshared_pos chrom
      n_shared inds_str b = some r) :
    ((b.1 = 0 → r.err_left = prev_nonshared_pos.map (fun lf => r.start - lf)) ∧
      (0 < b.1 → ∃ vp, variants[b.1 - 1]? = some vp ∧
        r.err_left = some (r.start - vp.POS)) ∧
      (b.1 = 0 → prev_nonshared_pos = none → r.err_left = none)) ∧
    ((b.2.1 + 1 = variants.length →
        r.err_right = next_nonshared_pos.map (fun rf => rf - r.stop)) ∧
      (b.2.1 + 1 < variants.length → ∃ vn, variants[b.2.1 + 1]? = some vn ∧
        r.err_right = some (vn.POS - r.stop)) ∧
      (b.2.1 + 1 = variants.length → next_nonshared_pos = none →
        r.err_right = none)) := by
  unfold emitBlock at h
  split at h
  · exact (nomatch h)
  rename_i bv0 bvrest hbv
  split at h
  · exact (nomatch h)
  split at h
  · exact (nomatch h)
  split at h
  · exact (nomatch h)
  injection h with h
  subst h
  have hlt : b.1 < variants.length := by
    by_contra hge
    rw [List.drop_eq_nil_of_le (by omega)] at hbv
    simp at hbv
  refine ⟨⟨fun hb0 => ?_, fun hbpos => ?_, fun hb0 hpn => ?_⟩,
    ⟨fun hbe => ?_, fun hblt => ?_, fun hbe hnn => ?_⟩⟩
  · simp [hb0]
  · have hidx : b.1 - 1 < variants.length := by omega
    exact ⟨variants[b.1 - 1], List.getElem?_eq_getElem hidx,
      by simp [hbpos, List.getElem?_eq_getElem hidx]⟩
  · simp [hb0, hpn]
  · have hnlt : ¬ (b.2.1 + 1 < variants.length) := by omega
    simp [hnlt]
  · exact ⟨variants[b.2.1 + 1], List.getElem?_eq_getElem hblt,
      by simp [hblt, List.getElem?_eq_getElem hblt]⟩
  · have hnlt : ¬ (b.2.1 + 1 < variants.length) := by omega
    simp [hnlt, hnn]

/-- Three same-chromosome variants at positions 100, 200, 300, all carried
by individual 0. -/
def vW1 : Variant := ⟨"chr1", 100, [[1, 0]], [1], ""⟩

def vW2 : Variant := ⟨"chr1", 200, [[1, 0]], [1], ""⟩

def vW3 : Variant := ⟨"chr1", 300, [[1, 0]], [1], ""⟩

/-- A permissive configuration with one wide gene region, used to witness a
successful block emission. -/
def cfgEmit : Config := ⟨0, 1, none, none, none, [], [("1", 0, 1000000)], 0, 0, 0,
  fun _ => none⟩

/-- The record emitted for the middle block `(1, 1, single)` of the witness
cluster. -/
def recW : OutputRecord :=
  ⟨"chr1", 200, 200, 1, 1, "x", Mode.single, some 100, some 100, 0, "ULTRA_RARE"⟩

/-- Witness for C5: the middle one-variant block of a three-variant cluster
is emitted, and its left flank gap comes from the position of the variant
immediately preceding the block. -/
theorem emitBlock_flank_gaps_witness :
    emitBlock cfgEmit [vW1, vW2, vW3] (some 50) (some 400) "chr1" 1 "x"
        (1, 1, Mode.single) = some recW ∧
      ∃ vp, ([vW1, vW2, vW3] : List Variant)[0]? = some vp ∧
        recW.err_left = some (recW.start - vp.POS) :=
  ⟨by decide,
    (emitBlock_flank_gaps cfgEmit [vW1, vW2, vW3] (some 50) (some 400) "chr1" 1
      "x" (1, 1, Mode.single) recW (by decide)).1.2.1 (by decide)⟩

/-! ### ClusterAccumulator: the streaming loop of `main` -/

/-- The mutable loop state of `main`: the in-flight cluster, the rolling
previous non-shared flank position and the last appended position. -/
structure AccSt where
  current_cluster : List Variant
  prev_nonshared_pos : Option Int
  last_pos : Option Int
  deriving DecidableEq, Repr

/-- One `flush_cluster` call site: the cluster together with the previous
and next non-shared flank positions passed to it. -/
abbrev FlushCall := List Variant × Option Int × Option Int

/-- One iteration of the variant loop in `main` for an incoming variant `v`:
the successor state and the flush call performed, if any.
`current_cluster[0]` and `current_cluster[-1]` are modelled with defaults
(`headD v`, `getLastD v`) that are never consulted: the branches reading
them run only when `last_pos` is set, which implies a non-empty cluster. -/
def stepVariant (cluster_distance : Int) (s : AccSt) (v : Variant) :
    AccSt × Option FlushCall :=
  match s.last_pos with
  | none => (⟨s.current_cluster ++ [v], s.prev_nonshared_pos, some v.POS⟩, none)
  | some lp =>
    if v.CHROM ≠ (s.current_cluster.headD v).CHROM then
      (⟨[v], none, some v.POS⟩,
        some (s.current_cluster, s.prev_nonshared_pos, none))
    else if v.POS - lp ≤ cluster_distance then
      (⟨s.current_cluster ++ [v], s.prev_nonshared_pos, some v.POS⟩, none)
    else
      (⟨[v], some (s.current_cluster.getLastD v).POS, some v.POS⟩,
        some (s.current_cluster, s.prev_nonshared_pos, some v.POS))

/-- The whole variant loop of `main`: fold over the stream from the initial
state, collecting the flush calls in order. -/
def runAccum (cluster_distance : Int) (vs : List Variant) :
    AccSt × List FlushCall :=
  vs.foldl
    (fun acc v =>
      ((stepVariant cluster_distance acc.1 v).1,
        acc.2 ++ (stepVariant cluster_distance acc.1 v).2.toList))
    (⟨[], none, none⟩, [])

/-- Every `flush_cluster` call `main` makes on a stream: the loop's calls in
order, then the final end-of-stream call with a null next-flank. -/
def driverFlushCalls (cluster_distance : Int) (vs : List Variant) :
    List FlushCall :=
  (runAccum cluster_distance vs).2 ++
    [((runAccum cluster_distance vs).1.current_cluster,
      (runAccum cluster_distance vs).1.prev_nonshared_pos, none)]

/-- C3: with a non-empty current cluster `C`, an incoming variant on a
different chromosome flushes `C` with a null next-flank and resets the
previous-flank to null; one on the same chromosome whose gap from `last_pos`
exceeds the distance flushes `C` with next-flank `v.POS` and remembers `C`'s
last position as the new previous-flank; otherwise `v` is appended; at end
of stream the remaining cluster is flushed with a null next-flank, and
flushing an empty cluster produces no records. -/
theorem accumulator_transitions :
    (∀ (cluster_distance : Int) (s : AccSt) (v : Variant) (lp : Int)
        (hne : s.current_cluster ≠ []) (_hlp : s.last_pos = some lp),
        (v.CHROM ≠ (s.current_cluster.head hne).CHROM →
          stepVariant cluster_distance s v
            = (⟨[v], none, some v.POS⟩,
                some (s.current_cluster, s.prev_nonshared_pos, none))) ∧
        (v.CHROM = (s.current_cluster.head hne).CHROM →
          cluster_distance < v.POS - lp →
          stepVariant cluster_distance s v
            = (⟨[v], some (s.current_cluster.getLast hne).POS, some v.POS⟩,
                some (s.current_cluster, s.prev_nonshared_pos, some v.POS))) ∧
        (v.CHROM = (s.current_cluster.head hne).CHROM →
          v.POS - lp ≤ cluster_distance →
          stepVariant cluster_distance s v
            = (⟨s.current_cluster ++ [v], s.prev_nonshared_pos, some v.POS⟩,
                none))) ∧
    (∀ (cluster_distance : Int) (vs : List Variant),
        driverFlushCalls cluster_distance vs
          = (runAccum cluster_distance vs).2 ++
            [((runAccum cluster_distance vs).1.current_cluster,
              (runAccum cluster_distance vs).1.prev_nonshared_pos, none)]) ∧
    (∀ (cfg : Config) (p n : Option Int), flush_cluster cfg [] p n = []) := by
  refine ⟨?_, fun d vs => rfl, fun cfg p n => rfl⟩
  intro d s v lp hne hlp
  have hhead : s.current_cluster.headD v = s.current_cluster.head hne := by
    rw [List.headD_eq_head?, List.head?_eq_head hne]
    rfl
  have hlast : s.current_cluster.getLastD v = s.current_cluster.getLast hne := by
    rw [List.getLastD_eq_getLast?, List.getLast?_eq_getLast _ hne]
    rfl
  have hstep : stepVariant d s v
      = if v.CHROM ≠ (s.current_cluster.headD v).CHROM then
          (⟨[v], none, some v.POS⟩,
            some (s.current_cluster, s.prev_nonshared_pos, none))
        else if v.POS - lp ≤ d then
          (⟨s.current_cluster ++ [v], s.prev_nonshared_pos, some v.POS⟩, none)
        else
          (⟨[v], some (s.current_cluster.getLastD v).POS, some v.POS⟩,
            some (s.current_cluster, s.prev_nonshared_pos, some v.POS)) := by
    unfold stepVariant
    rw [hlp]
  refine ⟨fun hc => ?_, fun hc hd => ?_, fun hc hd => ?_⟩
  · rw [hstep, if_pos (by rw [hhead]; exact hc)]
  · rw [hstep, if_neg (by rw [hhead]; exact fun hn => hn hc), if_neg (by omega),
      hlast]
  · rw [hstep, if_neg (by rw [hhead]; exact fun hn => hn hc), if_pos hd]

/-- Witness for C3: a same-chromosome variant at distance 100 > 50 flushes
the one-variant cluster with next-flank 200 and remembers position 100 as
the new previous-flank. -/
theorem accumulator_transitions_witness :
    stepVariant 50 ⟨[vW1], some 7, some 100⟩ vW2
      = (⟨[vW2], some 100, some 200⟩, some ([vW1], some 7, some 200)) :=
  (accumulator_transitions.1 50 ⟨[vW1], some 7, some 100⟩ vW2 100
      (by simp) rfl).2.1 rfl (by decide)
